import Mathlib

/-!
Shallow embedding of the identity-resolution core of `src/server/main.py`
(the `visage` repository).

Python floats are modelled as rationals (ℚ); Python's `round(x, 2)` is
modelled as rounding to two decimal places; the JSON artifacts are
modelled as lists (`face.json` is the slot-ordered list `ANNOY_INDEX`,
`performers.json` the association list `PERFORMER_DB`); the Annoy index
object is abstracted as a function from the query vector to the pair of
lists `(ids, distances)` returned by `get_nns_by_vector`; Python
exceptions surfacing through the HTTP layer are modelled with `Except`.
-/

namespace Visage

/-- The failure modes of the resolution pipeline: the 400 "Invalid vector
size" rejection in `confirm`, and the uncaught `IndexError`/`KeyError`
(internal server error) raised when `ANNOY_INDEX[p]` is out of range. -/
inductive LookupError where
  | invalidVectorSize
  | invalidSlot
deriving DecidableEq, Repr

/-- Model of Python's `str.split("=")` on a string viewed as a list of
characters: splits on every occurrence of the separator character. -/
def splitEq : List Char → List (List Char)
  | [] => [[]]
  | c :: rest =>
    if c = '=' then [] :: splitEq rest
    else
      match splitEq rest with
      | [] => [[c]]
      | p :: ps => (c :: p) :: ps

/-- `ANNOY_INDEX[p].split("=")[0]`: the slot entry text before the first
separator. -/
def identityOf (entry : String) : String :=
  ((splitEq entry.toList).headD []).asString

/-- Python's `round(x, 2)`: round to two decimal places, ties going to
the even hundredth (Python rounds half to even). -/
def round2 (q : ℚ) : ℚ :=
  let f : ℤ := ⌊100 * q⌋
  let r : ℚ := 100 * q - f
  if r < 1/2 then f / 100
  else if 1/2 < r then (f + 1) / 100
  else if f % 2 = 0 then f / 100 else (f + 1) / 100

/-- One in-progress match candidate: the dictionary
`{"id": ..., "distance": ..., "hits": ..., ["name": ..., "image": ...]}`
built by `lookup_performer`; the `name`/`image` keys are present exactly
when the identity was found in `PERFORMER_DB`. -/
structure Candidate where
  id : String
  distance : ℚ
  hits : ℕ
  name : Option String
  image : Option String
deriving DecidableEq, Repr

/-- The immutable per-process artifacts: the slot-ordered entries of
`face.json` and the identity-to-(name, image) mapping of
`performers.json`. -/
structure Context where
  annoyIndex : List String
  performerDB : List (String × String × String)
deriving DecidableEq, Repr

/-- `PERFORMER_DB.get(id)`: association-list lookup. -/
def dbLookup (db : List (String × String × String)) (idKey : String) :
    Option (String × String) :=
  (db.find? (fun e => e.1 == idKey)).map (fun e => e.2)

/-- The candidate created the first time an identity key is seen:
`{"id": id, "distance": round(distance, 2), "hits": 1}` enriched with
`name`/`image` when `id in PERFORMER_DB`. -/
def mkCandidate (ctx : Context) (idKey : String) (d : ℚ) : Candidate :=
  { id := idKey
    distance := round2 d
    hits := 1
    name := (dbLookup ctx.performerDB idKey).map (fun m => m.1)
    image := (dbLookup ctx.performerDB idKey).map (fun m => m.2) }

/-- The update applied when an identity key repeats:
`persons[id]["hits"] += 1; persons[id]["distance"] -= 0.5`. -/
def bump (idKey : String) (c : Candidate) : Candidate :=
  if c.id = idKey then
    { c with hits := c.hits + 1, distance := c.distance - 1/2 }
  else c

/-- One iteration of the aggregation loop of `lookup_performer` on the
hit `(p, distance)`: resolve `ANNOY_INDEX[p].split("=")[0]` (an
out-of-range slot raises), then either update the existing candidate or
create a fresh one (enriched from `PERFORMER_DB`).  The Python `dict`
keyed by identity is modelled as an insertion-ordered list with pairwise
distinct ids. -/
def processHit (ctx : Context) (persons : List Candidate) (hit : ℕ × ℚ) :
    Except LookupError (List Candidate) :=
  match ctx.annoyIndex[hit.1]? with
  | none => .error .invalidSlot
  | some entry =>
    let idKey := identityOf entry
    if persons.any (fun c => c.id == idKey) then
      .ok (persons.map (bump idKey))
    else
      .ok (persons ++ [mkCandidate ctx idKey hit.2])

/-- The aggregation loop `for p, distance in zip(ids, distances)`. -/
def aggregate (ctx : Context) (persons : List Candidate) :
    List (ℕ × ℚ) → Except LookupError (List Candidate)
  | [] => .ok persons
  | h :: t =>
    match processHit ctx persons h with
    | .error e => .error e
    | .ok persons' => aggregate ctx persons' t

/-- Stable insertion of a later element after every already-placed
element of no greater distance: the building block modelling Python's
stable `sorted(..., key=lambda x: x["distance"])`. -/
def stableInsert (x : Candidate) : List Candidate → List Candidate
  | [] => [x]
  | y :: ys =>
    if y.distance ≤ x.distance then y :: stableInsert x ys
    else x :: y :: ys

/-- Python's stable `sorted(persons.values(), key=lambda x: x["distance"])`:
insert the candidates left to right, each after all ties among the
earlier ones. -/
def sortByDistance (l : List Candidate) : List Candidate :=
  l.foldl (fun acc x => stableInsert x acc) []

/-- The dictionary returned by `lookup_performer`: the fresh request id
and the sorted, truncated candidate list. -/
structure LookupResult where
  id : String
  performers : List Candidate
deriving DecidableEq, Repr

/-- `lookup_performer(vector)`: query the Annoy index (abstracted as the
function `ann` returning the `(ids, distances)` pair of
`get_nns_by_vector(vector, 50, search_k=10000)`), aggregate the zipped
hits, then sort by distance and keep the first 10.  The fresh
`uuid.uuid4()` is abstracted as the parameter `uid`. -/
def lookup_performer (ann : List ℚ → List ℕ × List ℚ) (ctx : Context)
    (uid : String) (vector : List ℚ) : Except LookupError LookupResult :=
  let ids := (ann vector).1
  let distances := (ann vector).2
  match aggregate ctx [] (ids.zip distances) with
  | .error e => .error e
  | .ok persons =>
    .ok { id := uid, performers := (sortByDistance persons).take 10 }

/-- The `/search` endpoint `confirm(obj)`: reject vectors whose length is
not 512 with the "Invalid vector size" error before any index access,
otherwise call `lookup_performer`. -/
def confirm (ann : List ℚ → List ℕ × List ℚ) (ctx : Context)
    (uid : String) (vector : List ℚ) : Except LookupError LookupResult :=
  if vector.length ≠ 512 then .error .invalidVectorSize
  else lookup_performer ann ctx uid vector

/-- The pydantic `Performer` response model: optional `name`/`image`
fields default to "N/A" (applied by `response_model=PerformerSearch` on
the `recognise` endpoint). -/
structure Performer where
  id : String
  name : String
  image : String
  distance : ℚ
deriving DecidableEq, Repr

/-- Validation of one candidate dictionary against the `Performer`
model: missing optional fields take their declared defaults. -/
def Candidate.toPerformer (c : Candidate) : Performer :=
  { id := c.id
    name := c.name.getD "N/A"
    image := c.image.getD "N/A"
    distance := c.distance }

/-- A synthetic Annoy index for the spec's aggregation example: raw hits
`[(slotA, 1.0), (slotB, 1.0), (slotA2, 1.2)]`. -/
def exAnn : List ℚ → List ℕ × List ℚ := fun _ => ([0, 1, 2], [1, 1, 6/5])

/-- Slot map for the example: slots 0 and 2 belong to identity "X",
slot 1 to identity "Y"; no metadata. -/
def exCtx : Context := { annoyIndex := ["X=a", "Y", "X=b"], performerDB := [] }

/-- The candidates the example is expected to produce:
`X` with distance `0.5` and 2 hits, then `Y` with distance `1.0` and 1 hit. -/
def exPerfs : List Candidate :=
  [{ id := "X", distance := 1/2, hits := 2, name := none, image := none },
   { id := "Y", distance := 1, hits := 1, name := none, image := none }]

/-- The full expected result of the example for request id "u". -/
def exRes : LookupResult := { id := "u", performers := exPerfs }

/-- An index whose single hit names slot 5, out of range of `exCtx`. -/
def oobAnn : List ℚ → List ℕ × List ℚ := fun _ => ([5], [1])

/-- Four hits at distance 1.0 that all resolve to the same identity. -/
def negAnn : List ℚ → List ℕ × List ℚ := fun _ => ([0, 1, 2, 3], [1, 1, 1, 1])

/-- Slot map in which every slot belongs to identity "X". -/
def negCtx : Context := { annoyIndex := ["X", "X", "X", "X"], performerDB := [] }

/-- The order in which Python's stable `sorted` emits candidates: strictly
smaller distance first, ties kept in the order given by `R`. -/
def distTieOrder (R : Candidate → Candidate → Prop) (a b : Candidate) : Prop :=
  a.distance < b.distance ∨ (a.distance = b.distance ∧ R a b)

/-- `a` occurs (at some position) strictly before `b` in `l`. -/
def beforeIn (l : List Candidate) (a b : Candidate) : Prop :=
  ∃ i j : ℕ, i < j ∧ l[i]? = some a ∧ l[j]? = some b

/-- The candidate list holds pairwise distinct identity keys (the Python
`persons` dict cannot hold a key twice). -/
def DistinctIds (l : List Candidate) : Prop :=
  l.Pairwise (fun a b => a.id ≠ b.id)

/-- Every candidate's `name`/`image` fields agree with the
`PERFORMER_DB` lookup of its own identity key. -/
def MetaOk (ctx : Context) (l : List Candidate) : Prop :=
  ∀ c ∈ l, c.name = (dbLookup ctx.performerDB c.id).map (fun m => m.1) ∧
    c.image = (dbLookup ctx.performerDB c.id).map (fun m => m.2)

/-- Total hit count recorded for identity `k` across a candidate list. -/
def totalHits (l : List Candidate) (k : String) : ℕ :=
  (l.map (fun c => if c.id = k then c.hits else 0)).sum

/-- Number of raw ANN hits whose slot resolves to identity `k`. -/
def hitCount (ctx : Context) (hits : List (ℕ × ℚ)) (k : String) : ℕ :=
  (hits.filter (fun h => (ctx.annoyIndex[h.1]?).map identityOf = some k)).length

/-! ### Lemmas about the slot-entry parsing -/

theorem splitEq_ne_nil (l : List Char) : splitEq l ≠ [] := by
  induction l with
  | nil => simp [splitEq]
  | cons c rest ih =>
    simp only [splitEq]
    by_cases h : c = '='
    · simp [h]
    · simp only [if_neg h]
      cases hs : splitEq rest <;> simp

theorem splitEq_headD (l : List Char) :
    (splitEq l).headD [] = l.takeWhile (fun c => c ≠ '=') := by
  induction l with
  | nil => simp [splitEq]
  | cons c rest ih =>
    by_cases h : c = '='
    · simp [splitEq, h]
    · simp only [splitEq, if_neg h]
      cases hs : splitEq rest with
      | nil => exact absurd hs (splitEq_ne_nil rest)
      | cons p ps =>
        have hp : p = rest.takeWhile (fun c => c ≠ '=') := by
          rw [← ih, hs]; rfl
        simp [List.takeWhile_cons, h, hp]

theorem identityOf_eq_takeWhile (s : String) :
    identityOf s = (s.toList.takeWhile (fun c => c ≠ '=')).asString := by
  rw [identityOf, splitEq_headD]

theorem toList_identityOf (s : String) :
    (identityOf s).toList = s.toList.takeWhile (fun c => c ≠ '=') := by
  rw [identityOf_eq_takeWhile, List.toList_asString]

theorem identityOf_of_no_sep (s : String) (h : '=' ∉ s.toList) :
    identityOf s = s := by
  rw [identityOf_eq_takeWhile, List.takeWhile_eq_self_iff.2, String.asString_toList]
  intro c hc
  simp only [ne_eq, decide_eq_true_eq]
  exact fun he => h (he ▸ hc)

/-! ### Lemmas about the stable sort by distance -/

theorem stableInsert_perm (x : Candidate) (l : List Candidate) :
    (stableInsert x l).Perm (x :: l) := by
  induction l with
  | nil => rfl
  | cons y ys ih =>
    by_cases h : y.distance ≤ x.distance
    · simp only [stableInsert, if_pos h]
      exact (ih.cons y).trans (List.Perm.swap x y ys)
    · simp only [stableInsert, if_neg h]
      exact List.Perm.refl _

theorem foldl_stableInsert_perm (l acc : List Candidate) :
    ((l.foldl (fun a x => stableInsert x a) acc)).Perm (acc ++ l) := by
  induction l generalizing acc with
  | nil => simp
  | cons x t ih =>
    refine ((ih (stableInsert x acc)).trans ?_)
    exact ((stableInsert_perm x acc).append_right t).trans List.perm_middle.symm

theorem sortByDistance_perm (l : List Candidate) : (sortByDistance l).Perm l := by
  simpa using foldl_stableInsert_perm l []

theorem stableInsert_pairwise_le (x : Candidate) (l : List Candidate)
    (h : l.Pairwise (fun a b => a.distance ≤ b.distance)) :
    (stableInsert x l).Pairwise (fun a b => a.distance ≤ b.distance) := by
  induction l with
  | nil => simp [stableInsert]
  | cons y ys ih =>
    rw [List.pairwise_cons] at h
    by_cases hc : y.distance ≤ x.distance
    · simp only [stableInsert, if_pos hc]
      refine List.pairwise_cons.2 ⟨fun z hz => ?_, ih h.2⟩
      rcases List.mem_cons.1 (((stableInsert_perm x ys).mem_iff).1 hz) with hzx | hzys
      · exact hzx ▸ hc
      · exact h.1 z hzys
    · simp only [stableInsert, if_neg hc]
      refine List.pairwise_cons.2 ⟨fun z hz => ?_, List.pairwise_cons.2 h⟩
      rcases List.mem_cons.1 hz with rfl | hzys
      · exact (not_le.1 hc).le
      · exact (not_le.1 hc).le.trans (h.1 z hzys)

theorem foldl_stableInsert_pairwise_le (l acc : List Candidate)
    (hacc : acc.Pairwise (fun a b => a.distance ≤ b.distance)) :
    (l.foldl (fun a x => stableInsert x a) acc).Pairwise
      (fun a b => a.distance ≤ b.distance) := by
  induction l generalizing acc with
  | nil => exact hacc
  | cons x t ih => exact ih _ (stableInsert_pairwise_le x acc hacc)

theorem sortByDistance_sorted (l : List Candidate) :
    (sortByDistance l).Pairwise (fun a b => a.distance ≤ b.distance) :=
  foldl_stableInsert_pairwise_le l [] (List.Pairwise.nil)

theorem stableInsert_pairwise_tie (R : Candidate → Candidate → Prop)
    (x : Candidate) (m : List Candidate)
    (hle : m.Pairwise (fun a b => a.distance ≤ b.distance))
    (htie : m.Pairwise (distTieOrder R)) (hR : ∀ y ∈ m, R y x) :
    (stableInsert x m).Pairwise (distTieOrder R) := by
  induction m with
  | nil => simp [stableInsert]
  | cons y ys ih =>
    rw [List.pairwise_cons] at hle htie
    by_cases hc : y.distance ≤ x.distance
    · simp only [stableInsert, if_pos hc]
      refine List.pairwise_cons.2 ⟨fun z hz => ?_,
        ih hle.2 htie.2 (fun z hz => hR z (List.mem_cons_of_mem y hz))⟩
      rcases List.mem_cons.1 (((stableInsert_perm x ys).mem_iff).1 hz) with hzx | hzys
      · subst hzx
        rcases lt_or_eq_of_le hc with hlt | heq
        · exact Or.inl hlt
        · exact Or.inr ⟨heq, hR y (List.mem_cons_self y ys)⟩
      · exact htie.1 z hzys
    · simp only [stableInsert, if_neg hc]
      refine List.pairwise_cons.2 ⟨fun z hz => ?_,
        List.pairwise_cons.2 ⟨htie.1, htie.2⟩⟩
      rcases List.mem_cons.1 hz with rfl | hzys
      · exact Or.inl (not_le.1 hc)
      · exact Or.inl ((not_le.1 hc).trans_le (hle.1 z hzys))

theorem foldl_stableInsert_pairwise_tie (R : Candidate → Candidate → Prop)
    (l acc : List Candidate)
    (hle : acc.Pairwise (fun a b => a.distance ≤ b.distance))
    (htie : acc.Pairwise (distTieOrder R)) (hl : l.Pairwise R)
    (hcross : ∀ y ∈ acc, ∀ x ∈ l, R y x) :
    (l.foldl (fun a x => stableInsert x a) acc).Pairwise (distTieOrder R) := by
  induction l generalizing acc with
  | nil => exact htie
  | cons x t ih =>
    rw [List.pairwise_cons] at hl
    refine ih (stableInsert x acc) (stableInsert_pairwise_le x acc hle)
      (stableInsert_pairwise_tie R x acc hle htie
        (fun y hy => hcross y hy x (List.mem_cons_self x t)))
      hl.2 (fun y hy z hz => ?_)
    rcases List.mem_cons.1 (((stableInsert_perm x acc).mem_iff).1 hy) with hyx | hyacc
    · exact hyx ▸ hl.1 z hz
    · exact hcross y hyacc z (List.mem_cons_of_mem x hz)

theorem sortByDistance_pairwise_tie (R : Candidate → Candidate → Prop)
    (l : List Candidate) (hl : l.Pairwise R) :
    (sortByDistance l).Pairwise (distTieOrder R) :=
  foldl_stableInsert_pairwise_tie R l [] List.Pairwise.nil List.Pairwise.nil hl
    (by simp)

theorem pairwise_beforeIn (l : List Candidate) : l.Pairwise (beforeIn l) := by
  rw [List.pairwise_iff_getElem]
  intro i j hi hj hij
  exact ⟨i, j, hij, by simp [List.getElem?_eq_getElem, hi],
    by simp [List.getElem?_eq_getElem, hj]⟩

/-! ### Lemmas about one aggregation step -/

theorem bump_id (k : String) (c : Candidate) : (bump k c).id = c.id := by
  unfold bump; split <;> rfl

theorem bump_name (k : String) (c : Candidate) : (bump k c).name = c.name := by
  unfold bump; split <;> rfl

theorem bump_image (k : String) (c : Candidate) : (bump k c).image = c.image := by
  unfold bump; split <;> rfl

theorem bump_hits (k : String) (c : Candidate) :
    (bump k c).hits = if c.id = k then c.hits + 1 else c.hits := by
  unfold bump; split <;> simp [*]

theorem processHit_none (ctx : Context) (persons : List Candidate) (hit : ℕ × ℚ)
    (h : ctx.annoyIndex[hit.1]? = none) :
    processHit ctx persons hit = .error .invalidSlot := by
  simp [processHit, h]

theorem processHit_fresh (ctx : Context) (persons : List Candidate) (p : ℕ)
    (d : ℚ) (entry : String) (he : ctx.annoyIndex[p]? = some entry)
    (hnew : ∀ c ∈ persons, c.id ≠ identityOf entry) :
    processHit ctx persons (p, d) =
      .ok (persons ++ [mkCandidate ctx (identityOf entry) d]) := by
  have hany : persons.any (fun c => c.id == identityOf entry) = false := by
    simp only [List.any_eq_false, beq_iff_eq]
    exact hnew
  simp [processHit, he, hany]

theorem processHit_repeat (ctx : Context) (persons : List Candidate) (p : ℕ)
    (d : ℚ) (entry : String) (he : ctx.annoyIndex[p]? = some entry)
    (hold : ∃ c ∈ persons, c.id = identityOf entry) :
    processHit ctx persons (p, d) = .ok (persons.map (bump (identityOf entry))) := by
  have hany : persons.any (fun c => c.id == identityOf entry) = true := by
    rcases hold with ⟨c, hc, hce⟩
    exact List.any_eq_true.2 ⟨c, hc, by simp [hce]⟩
  simp [processHit, he, hany]

theorem processHit_error_char (ctx : Context) (persons : List Candidate)
    (hit : ℕ × ℚ) (e : LookupError) (h : processHit ctx persons hit = .error e) :
    e = .invalidSlot ∧ ctx.annoyIndex.length ≤ hit.1 := by
  unfold processHit at h
  cases he : ctx.annoyIndex[hit.1]? with
  | none =>
    rw [he] at h
    refine ⟨by cases h; rfl, ?_⟩
    exact List.getElem?_eq_none_iff.1 he
  | some entry =>
    rw [he] at h
    by_cases hany : persons.any (fun c => c.id == identityOf entry) = true <;>
      simp [hany] at h

theorem processHit_ok_of_lt (ctx : Context) (persons : List Candidate)
    (hit : ℕ × ℚ) (hlt : hit.1 < ctx.annoyIndex.length) :
    ∃ res, processHit ctx persons hit = .ok res := by
  unfold processHit
  rw [List.getElem?_eq_getElem hlt]
  by_cases hany : persons.any
      (fun c => c.id == identityOf ctx.annoyIndex[hit.1]) = true <;>
    simp [hany]

theorem processHit_distinct (ctx : Context) (persons res : List Candidate)
    (hit : ℕ × ℚ) (hd : DistinctIds persons)
    (h : processHit ctx persons hit = .ok res) : DistinctIds res := by
  cases he : ctx.annoyIndex[hit.1]? with
  | none => rw [processHit_none ctx persons hit he] at h; cases h
  | some entry =>
    by_cases hold : ∃ c ∈ persons, c.id = identityOf entry
    · rw [processHit_repeat ctx persons hit.1 hit.2 entry he hold] at h
      cases h
      unfold DistinctIds at hd ⊢
      rw [List.pairwise_map]
      exact hd.imp (by intro a b hab; simpa [bump_id] using hab)
    · push_neg at hold
      rw [processHit_fresh ctx persons hit.1 hit.2 entry he hold] at h
      cases h
      unfold DistinctIds at hd ⊢
      rw [List.pairwise_append]
      refine ⟨hd, List.pairwise_singleton _ _, ?_⟩
      intro a ha b hb
      simp only [List.mem_singleton] at hb
      subst hb
      simpa [mkCandidate] using hold a ha

theorem processHit_metaOk (ctx : Context) (persons res : List Candidate)
    (hit : ℕ × ℚ) (hm : MetaOk ctx persons)
    (h : processHit ctx persons hit = .ok res) : MetaOk ctx res := by
  cases he : ctx.annoyIndex[hit.1]? with
  | none => rw [processHit_none ctx persons hit he] at h; cases h
  | some entry =>
    by_cases hold : ∃ c ∈ persons, c.id = identityOf entry
    · rw [processHit_repeat ctx persons hit.1 hit.2 entry he hold] at h
      cases h
      intro c hc
      rcases List.mem_map.1 hc with ⟨c0, hc0, rfl⟩
      rw [bump_id, bump_name, bump_image]
      exact hm c0 hc0
    · push_neg at hold
      rw [processHit_fresh ctx persons hit.1 hit.2 entry he hold] at h
      cases h
      intro c hc
      rcases List.mem_append.1 hc with hc0 | hc1
      · exact hm c hc0
      · simp only [List.mem_singleton] at hc1
        subst hc1
        exact ⟨rfl, rfl⟩

theorem totalHits_nil (k : String) : totalHits [] k = 0 := rfl

theorem totalHits_cons (c : Candidate) (l : List Candidate) (k : String) :
    totalHits (c :: l) k = (if c.id = k then c.hits else 0) + totalHits l k := by
  simp [totalHits]

theorem totalHits_append (l₁ l₂ : List Candidate) (k : String) :
    totalHits (l₁ ++ l₂) k = totalHits l₁ k + totalHits l₂ k := by
  simp [totalHits]

theorem totalHits_eq_zero (l : List Candidate) (k : String)
    (h : ∀ c ∈ l, c.id ≠ k) : totalHits l k = 0 := by
  induction l with
  | nil => rfl
  | cons c t ih =>
    rw [totalHits_cons, if_neg (h c (List.mem_cons_self c t)),
      ih (fun c hc => h c (List.mem_cons_of_mem _ hc))]

theorem totalHits_map_bump_ne (idk k : String) (hne : k ≠ idk)
    (l : List Candidate) :
    totalHits (l.map (bump idk)) k = totalHits l k := by
  induction l with
  | nil => rfl
  | cons c t ih =>
    rw [List.map_cons, totalHits_cons, totalHits_cons, ih, bump_id, bump_hits]
    by_cases hck : c.id = k
    · rw [if_pos hck, if_pos hck, if_neg (hck ▸ hne ∘ Eq.symm ∘ Eq.symm)]
    · rw [if_neg hck, if_neg hck]

theorem totalHits_map_bump_eq (idk : String) (l : List Candidate)
    (hd : DistinctIds l) (hmem : ∃ c ∈ l, c.id = idk) :
    totalHits (l.map (bump idk)) idk = totalHits l idk + 1 := by
  induction l with
  | nil => simp at hmem
  | cons c t ih =>
    unfold DistinctIds at hd
    rw [List.pairwise_cons] at hd
    rw [List.map_cons, totalHits_cons, totalHits_cons, bump_id, bump_hits]
    by_cases hck : c.id = idk
    · have ht0 : ∀ b ∈ t, b.id ≠ idk := fun b hb => hck ▸ (hd.1 b hb).symm
      have ht0' : ∀ b ∈ t.map (bump idk), b.id ≠ idk := by
        intro b hb
        rcases List.mem_map.1 hb with ⟨b0, hb0, rfl⟩
        rw [bump_id]; exact ht0 b0 hb0
      rw [totalHits_eq_zero t idk ht0, totalHits_eq_zero _ idk ht0']
      simp [hck]
    · rcases hmem with ⟨c0, hc0, hc0k⟩
      rcases List.mem_cons.1 hc0 with rfl | hc0t
      · exact absurd hc0k hck
      · rw [if_neg hck, if_neg hck, ih hd.2 ⟨c0, hc0t, hc0k⟩]
        omega

theorem totalHits_of_mem_distinct (l : List Candidate) (c : Candidate)
    (hd : DistinctIds l) (hc : c ∈ l) : totalHits l c.id = c.hits := by
  induction l with
  | nil => simp at hc
  | cons d t ih =>
    unfold DistinctIds at hd
    rw [List.pairwise_cons] at hd
    rw [totalHits_cons]
    rcases List.mem_cons.1 hc with rfl | hct
    · rw [if_pos rfl, totalHits_eq_zero t c.id (fun b hb => (hd.1 b hb).symm)]
      omega
    · rw [if_neg (fun he => (hd.1 c hct) he), ih hd.2 hct]
      omega

theorem hitCount_nil (ctx : Context) (k : String) : hitCount ctx [] k = 0 := rfl

theorem hitCount_cons (ctx : Context) (h : ℕ × ℚ) (t : List (ℕ × ℚ))
    (k : String) :
    hitCount ctx (h :: t) k =
      (if (ctx.annoyIndex[h.1]?).map identityOf = some k then 1 else 0) +
        hitCount ctx t k := by
  simp only [hitCount, List.filter_cons]
  split <;> simp_all <;> omega

theorem processHit_totalHits (ctx : Context) (persons res : List Candidate)
    (hit : ℕ × ℚ) (hd : DistinctIds persons)
    (hph : processHit ctx persons hit = .ok res) (k : String) :
    totalHits res k = totalHits persons k +
      (if (ctx.annoyIndex[hit.1]?).map identityOf = some k then 1 else 0) := by
  cases he : ctx.annoyIndex[hit.1]? with
  | none => rw [processHit_none ctx persons hit he] at hph; cases hph
  | some entry =>
    simp only [Option.map_some', Option.some.injEq]
    by_cases hold : ∃ c ∈ persons, c.id = identityOf entry
    · rw [processHit_repeat ctx persons hit.1 hit.2 entry he hold] at hph
      cases hph
      by_cases hk : identityOf entry = k
      · subst hk
        rw [totalHits_map_bump_eq _ _ hd hold, if_pos rfl]
      · rw [totalHits_map_bump_ne _ _ (fun he2 => hk he2.symm) _, if_neg hk]
        omega
    · push_neg at hold
      rw [processHit_fresh ctx persons hit.1 hit.2 entry he hold] at hph
      cases hph
      rw [totalHits_append, totalHits_cons, totalHits_nil]
      simp only [mkCandidate]
      by_cases hk : identityOf entry = k <;> simp [hk]

/-! ### Lemmas about the aggregation loop -/

theorem aggregate_distinct (ctx : Context) :
    ∀ (hits : List (ℕ × ℚ)) (persons res : List Candidate),
      DistinctIds persons → aggregate ctx persons hits = .ok res →
      DistinctIds res := by
  intro hits
  induction hits with
  | nil =>
    intro persons res hd h
    simp only [aggregate, Except.ok.injEq] at h
    exact h ▸ hd
  | cons h0 t ih =>
    intro persons res hd h
    cases hph : processHit ctx persons h0 with
    | error e =>
      simp only [aggregate, hph] at h
      exact Except.noConfusion h
    | ok ps =>
      simp only [aggregate, hph] at h
      exact ih ps res (processHit_distinct ctx persons ps h0 hd hph) h

theorem aggregate_metaOk (ctx : Context) :
    ∀ (hits : List (ℕ × ℚ)) (persons res : List Candidate),
      MetaOk ctx persons → aggregate ctx persons hits = .ok res →
      MetaOk ctx res := by
  intro hits
  induction hits with
  | nil =>
    intro persons res hm h
    simp only [aggregate, Except.ok.injEq] at h
    exact h ▸ hm
  | cons h0 t ih =>
    intro persons res hm h
    cases hph : processHit ctx persons h0 with
    | error e =>
      simp only [aggregate, hph] at h
      exact Except.noConfusion h
    | ok ps =>
      simp only [aggregate, hph] at h
      exact ih ps res (processHit_metaOk ctx persons ps h0 hm hph) h

theorem aggregate_totalHits (ctx : Context) :
    ∀ (hits : List (ℕ × ℚ)) (persons res : List Candidate),
      DistinctIds persons → aggregate ctx persons hits = .ok res →
      ∀ k, totalHits res k = totalHits persons k + hitCount ctx hits k := by
  intro hits
  induction hits with
  | nil =>
    intro persons res _ h k
    simp only [aggregate, Except.ok.injEq] at h
    rw [← h, hitCount_nil]
    omega
  | cons h0 t ih =>
    intro persons res hd h k
    cases hph : processHit ctx persons h0 with
    | error e =>
      simp only [aggregate, hph] at h
      exact Except.noConfusion h
    | ok ps =>
      simp only [aggregate, hph] at h
      rw [hitCount_cons,
        ih ps res (processHit_distinct ctx persons ps h0 hd hph) h k,
        processHit_totalHits ctx persons ps h0 hd hph k]
      omega

theorem aggregate_oob (ctx : Context) :
    ∀ (hits : List (ℕ × ℚ)) (persons : List Candidate),
      (∃ h ∈ hits, ctx.annoyIndex.length ≤ h.1) →
      aggregate ctx persons hits = .error .invalidSlot := by
  intro hits
  induction hits with
  | nil => intro persons hbad; simp at hbad
  | cons h0 t ih =>
    intro persons hbad
    by_cases h0bad : ctx.annoyIndex.length ≤ h0.1
    · have hnone : ctx.annoyIndex[h0.1]? = none :=
        List.getElem?_eq_none_iff.2 h0bad
      simp only [aggregate, processHit_none ctx persons h0 hnone]
    · rcases hbad with ⟨hb, hmem, hlen⟩
      rcases List.mem_cons.1 hmem with rfl | hmemt
      · exact absurd hlen h0bad
      · rcases processHit_ok_of_lt ctx persons h0 (not_le.1 h0bad) with ⟨ps, hph⟩
        simp only [aggregate, hph]
        exact ih ps ⟨hb, hmemt, hlen⟩

theorem aggregate_error_char (ctx : Context) :
    ∀ (hits : List (ℕ × ℚ)) (persons : List Candidate) (e : LookupError),
      aggregate ctx persons hits = .error e →
      e = .invalidSlot ∧ ∃ h ∈ hits, ctx.annoyIndex.length ≤ h.1 := by
  intro hits
  induction hits with
  | nil =>
    intro persons e h
    simp only [aggregate] at h
    exact Except.noConfusion h
  | cons h0 t ih =>
    intro persons e h
    cases hph : processHit ctx persons h0 with
    | error e0 =>
      simp only [aggregate, hph, Except.error.injEq] at h
      rcases processHit_error_char ctx persons h0 e0 hph with ⟨he0, hlen⟩
      exact ⟨h ▸ he0, h0, List.mem_cons_self h0 t, hlen⟩
    | ok ps =>
      simp only [aggregate, hph] at h
      rcases ih ps e h with ⟨he, hb, hmem, hlen⟩
      exact ⟨he, hb, List.mem_cons_of_mem h0 hmem, hlen⟩

/-! ### Lemmas about the entry points -/

theorem lookup_performer_ok (ann : List ℚ → List ℕ × List ℚ) (ctx : Context)
    (uid : String) (v : List ℚ) (r : LookupResult)
    (h : lookup_performer ann ctx uid v = .ok r) :
    ∃ persons, aggregate ctx [] ((ann v).1.zip (ann v).2) = .ok persons ∧
      r.id = uid ∧ r.performers = (sortByDistance persons).take 10 := by
  simp only [lookup_performer] at h
  cases hag : aggregate ctx [] ((ann v).1.zip (ann v).2) with
  | error e => rw [hag] at h; cases h
  | ok persons =>
    rw [hag] at h
    cases h
    exact ⟨persons, rfl, rfl, rfl⟩

theorem lookup_performer_error (ann : List ℚ → List ℕ × List ℚ)
    (ctx : Context) (uid : String) (v : List ℚ) (e : LookupError)
    (h : lookup_performer ann ctx uid v = .error e) :
    aggregate ctx [] ((ann v).1.zip (ann v).2) = .error e := by
  simp only [lookup_performer] at h
  cases hag : aggregate ctx [] ((ann v).1.zip (ann v).2) with
  | error e0 => rw [hag] at h; cases h; rfl
  | ok persons => rw [hag] at h; cases h

theorem confirm_eq_lookup (ann : List ℚ → List ℕ × List ℚ) (ctx : Context)
    (uid : String) (v : List ℚ) (hlen : v.length = 512) :
    confirm ann ctx uid v = lookup_performer ann ctx uid v := by
  simp [confirm, hlen]

theorem confirm_short (ann : List ℚ → List ℕ × List ℚ) (ctx : Context)
    (uid : String) (v : List ℚ) (hlen : v.length ≠ 512) :
    confirm ann ctx uid v = .error .invalidVectorSize := by
  simp [confirm, hlen]

/-! ### Evaluation of the concrete example -/

theorem exEval (uid : String) :
    lookup_performer exAnn exCtx uid (List.replicate 512 0) =
      .ok { id := uid, performers := exPerfs } := by
  norm_num [lookup_performer, aggregate, processHit, mkCandidate, bump, dbLookup,
    round2, stableInsert, sortByDistance, exAnn, exCtx, exPerfs,
    (by decide : identityOf "X=a" = "X"), (by decide : identityOf "X=b" = "X"),
    (by decide : identityOf "Y" = "Y")]
  simp +decide
  norm_num [stableInsert, bump]
  simp +decide
  norm_num

theorem exEvalConfirm (uid : String) :
    confirm exAnn exCtx uid (List.replicate 512 0) =
      .ok { id := uid, performers := exPerfs } := by
  rw [confirm_eq_lookup _ _ _ _ (List.length_replicate 512 0)]
  exact exEval uid

/-! ### The claims -/

/-- C3: for every input vector whose length is not 512, the `/search`
entry point fails with the invalid-vector-size client error, and the
outcome is independent of the ANN index (no index query happens: the
result is the same for every index function). -/
theorem spec_C3 (ann ann' : List ℚ → List ℕ × List ℚ) (ctx : Context)
    (uid : String) (v : List ℚ) (hlen : v.length ≠ 512) :
    confirm ann ctx uid v = .error .invalidVectorSize ∧
    confirm ann ctx uid v = confirm ann' ctx uid v := by
  refine ⟨confirm_short ann ctx uid v hlen, ?_⟩
  rw [confirm_short ann ctx uid v hlen, confirm_short ann' ctx uid v hlen]

theorem spec_C3_witness :
    ([] : List ℚ).length ≠ 512 ∧
    confirm exAnn exCtx "u" [] = .error .invalidVectorSize :=
  ⟨by decide, (spec_C3 exAnn oobAnn exCtx "u" [] (by decide)).1⟩

/-- C5: a slot returned by the ANN index with no entry in the slot map
(an out-of-range index into `ANNOY_INDEX`) makes the whole request fail
with the internal `invalidSlot` error; no partial result is returned. -/
theorem spec_C5 (ann : List ℚ → List ℕ × List ℚ) (ctx : Context)
    (uid : String) (v : List ℚ) (hlen : v.length = 512)
    (hbad : ∃ h ∈ (ann v).1.zip (ann v).2, ctx.annoyIndex.length ≤ h.1) :
    confirm ann ctx uid v = .error .invalidSlot := by
  rw [confirm_eq_lookup ann ctx uid v hlen]
  simp only [lookup_performer]
  rw [aggregate_oob ctx ((ann v).1.zip (ann v).2) [] hbad]

theorem spec_C5_witness :
    (List.replicate 512 (0 : ℚ)).length = 512 ∧
    confirm oobAnn exCtx "u" (List.replicate 512 0) = .error .invalidSlot :=
  ⟨List.length_replicate 512 0,
    spec_C5 oobAnn exCtx "u" (List.replicate 512 0) (List.length_replicate 512 0)
      ⟨(5, 1), by simp [oobAnn], by decide⟩⟩

/-- C6: resolution is deterministic apart from the fresh request id: for
the same vector, index and artifacts, the `performers` content is the
same whatever the generated id is, and the result's `id` field is
exactly the generated id. -/
theorem spec_C6 (ann : List ℚ → List ℕ × List ℚ) (ctx : Context)
    (uid₁ uid₂ : String) (v : List ℚ) :
    (confirm ann ctx uid₁ v).map (fun r => r.performers) =
      (confirm ann ctx uid₂ v).map (fun r => r.performers) ∧
    (∀ r, confirm ann ctx uid₁ v = .ok r → r.id = uid₁) := by
  constructor
  · by_cases hlen : v.length = 512
    · rw [confirm_eq_lookup ann ctx uid₁ v hlen,
        confirm_eq_lookup ann ctx uid₂ v hlen]
      simp only [lookup_performer]
      cases aggregate ctx [] ((ann v).1.zip (ann v).2) <;> rfl
    · rw [confirm_short ann ctx uid₁ v hlen, confirm_short ann ctx uid₂ v hlen]
  · intro r hr
    by_cases hlen : v.length = 512
    · rw [confirm_eq_lookup ann ctx uid₁ v hlen] at hr
      rcases lookup_performer_ok ann ctx uid₁ v r hr with ⟨_, _, hid, _⟩
      exact hid
    · rw [confirm_short ann ctx uid₁ v hlen] at hr
      exact Except.noConfusion hr

theorem spec_C6_witness :
    (confirm exAnn exCtx "a" (List.replicate 512 0)).map (fun r => r.performers) =
      (confirm exAnn exCtx "b" (List.replicate 512 0)).map (fun r => r.performers) ∧
    confirm exAnn exCtx "a" (List.replicate 512 0) =
      .ok { id := "a", performers := exPerfs } ∧
    ({ id := "a", performers := exPerfs } : LookupResult).id = "a" :=
  ⟨(spec_C6 exAnn exCtx "a" "b" (List.replicate 512 0)).1, exEvalConfirm "a",
    (spec_C6 exAnn exCtx "a" "b" (List.replicate 512 0)).2
      { id := "a", performers := exPerfs } (exEvalConfirm "a")⟩

/-- C7: for every in-range slot, the resolved identity key is the
substring of the slot's entry before the first separator `=` (the entry
splits as key ++ rest with rest empty or starting with `=`, and the key
itself contains no separator); an entry with no separator yields the
whole entry. -/
theorem spec_C7 (ctx : Context) (slot : ℕ) (entry : String)
    (he : ctx.annoyIndex[slot]? = some entry) :
    (∃ rest, entry.toList = (identityOf entry).toList ++ rest ∧
      '=' ∉ (identityOf entry).toList ∧
      (rest = [] ∨ ∃ t, rest = '=' :: t)) ∧
    ('=' ∉ entry.toList → identityOf entry = entry) := by
  refine ⟨⟨entry.toList.dropWhile (fun c => c ≠ '='), ?_, ?_, ?_⟩,
    identityOf_of_no_sep entry⟩
  · rw [toList_identityOf]
    exact (List.takeWhile_append_dropWhile _ entry.toList).symm
  · intro hmem
    rw [toList_identityOf] at hmem
    have := List.mem_takeWhile_imp hmem
    simp at this
  · cases hd : entry.toList.dropWhile (fun c => c ≠ '=') with
    | nil => exact Or.inl rfl
    | cons c t =>
      right
      refine ⟨t, ?_⟩
      have h2 := List.head?_dropWhile_not (fun c => c ≠ '=') entry.toList
      rw [hd] at h2
      simp only [List.head?_cons] at h2
      simp only [ne_eq, decide_not, Bool.not_eq_false', decide_eq_true_eq] at h2
      rw [h2]

theorem spec_C7_witness :
    (exCtx.annoyIndex[0]? = some "X=a") ∧
    ((∃ rest, "X=a".toList = (identityOf "X=a").toList ++ rest ∧
        '=' ∉ (identityOf "X=a").toList ∧ (rest = [] ∨ ∃ t, rest = '=' :: t)) ∧
      ('=' ∉ "X=a".toList → identityOf "X=a" = "X=a")) :=
  ⟨by decide, spec_C7 exCtx 0 "X=a" (by decide)⟩

/-- C8: the adjusted distance has no lower bound of zero: with four hits
of the same identity at raw distance 1.0, the aggregated candidate's
stored distance is 1.0 − 3·0.5 = −0.5 < 0. -/
theorem spec_C8 :
    lookup_performer negAnn negCtx "u" (List.replicate 512 0) =
      .ok { id := "u", performers :=
        [{ id := "X", distance := -(1/2), hits := 4, name := none, image := none }] } ∧
    ∃ c ∈ ({ id := "u", performers :=
        [{ id := "X", distance := -(1/2), hits := 4, name := none, image := none }] } :
          LookupResult).performers, c.distance < 0 := by
  constructor
  · norm_num [lookup_performer, aggregate, processHit, mkCandidate, bump, dbLookup,
      round2, stableInsert, sortByDistance, negAnn, negCtx,
      (by decide : identityOf "X" = "X")]
  · exact ⟨_, List.mem_singleton_self _, by norm_num⟩

/-- C10: the identity keys of the returned performers are pairwise
distinct: however many of the raw hits map to one identity, it surfaces
at most once. -/
theorem spec_C10 (ann : List ℚ → List ℕ × List ℚ) (ctx : Context)
    (uid : String) (v : List ℚ) (r : LookupResult)
    (h : lookup_performer ann ctx uid v = .ok r) :
    r.performers.Pairwise (fun a b => a.id ≠ b.id) := by
  rcases lookup_performer_ok ann ctx uid v r h with ⟨persons, hag, _, hperf⟩
  have hd : DistinctIds persons :=
    aggregate_distinct ctx ((ann v).1.zip (ann v).2) [] persons
      List.Pairwise.nil hag
  have hd2 : (sortByDistance persons).Pairwise (fun a b => a.id ≠ b.id) :=
    ((sortByDistance_perm persons).pairwise_iff
      (fun hab => Ne.symm hab)).2 hd
  rw [hperf]
  exact List.Pairwise.sublist (List.take_sublist 10 _) hd2

theorem spec_C10_witness :
    lookup_performer exAnn exCtx "u" (List.replicate 512 0) = .ok exRes ∧
    exRes.performers.Pairwise (fun a b => a.id ≠ b.id) :=
  ⟨exEval "u",
    spec_C10 exAnn exCtx "u" (List.replicate 512 0) exRes (exEval "u")⟩

/-- C1: aggregation over the hits in index order: the first hit of an
identity key creates the candidate `{distance = round(raw, 2), hits = 1}`
(with any metadata found for that key); each later hit of the same key
increments `hits` and subtracts exactly 0.5 from the stored distance,
ignoring that hit's own raw distance; on the spec's synthetic example
this yields `X(distance 0.5, hits 2)` ranked before `Y(1.0, 1)`. -/
theorem spec_C1 :
    (∀ (ctx : Context) (persons : List Candidate) (p : ℕ) (d : ℚ)
        (entry : String), ctx.annoyIndex[p]? = some entry →
      (∀ c ∈ persons, c.id ≠ identityOf entry) →
      processHit ctx persons (p, d) = .ok (persons ++
        [{ id := identityOf entry, distance := round2 d, hits := 1,
           name := (dbLookup ctx.performerDB (identityOf entry)).map
             (fun m => m.1),
           image := (dbLookup ctx.performerDB (identityOf entry)).map
             (fun m => m.2) }])) ∧
    (∀ (ctx : Context) (persons : List Candidate) (p : ℕ) (d d' : ℚ)
        (entry : String), ctx.annoyIndex[p]? = some entry →
      (∃ c ∈ persons, c.id = identityOf entry) →
      processHit ctx persons (p, d) = .ok (persons.map (fun c =>
        if c.id = identityOf entry then
          { c with hits := c.hits + 1, distance := c.distance - 1/2 }
        else c)) ∧
      processHit ctx persons (p, d) = processHit ctx persons (p, d')) ∧
    lookup_performer exAnn exCtx "u" (List.replicate 512 0) = .ok exRes := by
  refine ⟨?_, ?_, exEval "u"⟩
  · intro ctx persons p d entry he hnew
    exact processHit_fresh ctx persons p d entry he hnew
  · intro ctx persons p d d' entry he hold
    refine ⟨processHit_repeat ctx persons p d entry he hold, ?_⟩
    rw [processHit_repeat ctx persons p d entry he hold,
      processHit_repeat ctx persons p d' entry he hold]

theorem spec_C1_witness :
    (exCtx.annoyIndex[0]? = some "X=a") ∧
    processHit exCtx [] (0, 1) = .ok ([] ++
      [{ id := identityOf "X=a", distance := round2 1, hits := 1,
         name := (dbLookup exCtx.performerDB (identityOf "X=a")).map
           (fun m => m.1),
         image := (dbLookup exCtx.performerDB (identityOf "X=a")).map
           (fun m => m.2) }]) ∧
    processHit exCtx exPerfs (2, 6/5) = .ok (exPerfs.map (fun c =>
      if c.id = identityOf "X=b" then
        { c with hits := c.hits + 1, distance := c.distance - 1/2 }
      else c)) ∧
    processHit exCtx exPerfs (2, 6/5) = processHit exCtx exPerfs (2, 7) :=
  ⟨by decide,
   spec_C1.1 exCtx [] 0 1 "X=a" (by decide) (by simp),
   (spec_C1.2.1 exCtx exPerfs 2 (6/5) 7 "X=b" (by decide)
     ⟨⟨"X", 1/2, 2, none, none⟩, by simp [exPerfs], by decide⟩).1,
   (spec_C1.2.1 exCtx exPerfs 2 (6/5) 7 "X=b" (by decide)
     ⟨⟨"X", 1/2, 2, none, none⟩, by simp [exPerfs], by decide⟩).2⟩

/-- C2: for every valid 512-length vector whose resolution succeeds, the
returned performers list has at most 10 entries, is sorted by
non-decreasing adjusted distance with ties kept in first-occurrence
order (the order of the aggregated candidate list), and when more than
10 identities were aggregated it is exactly the first 10 of a sorted
permutation of all candidates, so every kept distance is at most every
dropped distance. -/
theorem spec_C2 (ann : List ℚ → List ℕ × List ℚ) (ctx : Context)
    (uid : String) (v : List ℚ) (hlen : v.length = 512) (r : LookupResult)
    (hr : confirm ann ctx uid v = .ok r) :
    r.performers.length ≤ 10 ∧
    r.performers.Pairwise (fun a b => a.distance ≤ b.distance) ∧
    ∃ persons, aggregate ctx [] ((ann v).1.zip (ann v).2) = .ok persons ∧
      r.performers = (sortByDistance persons).take 10 ∧
      (sortByDistance persons).Perm persons ∧
      r.performers.Pairwise (distTieOrder (beforeIn persons)) ∧
      (10 < persons.length → r.performers.length = 10 ∧
        ∀ a ∈ r.performers, ∀ b ∈ (sortByDistance persons).drop 10,
          a.distance ≤ b.distance) := by
  rw [confirm_eq_lookup ann ctx uid v hlen] at hr
  rcases lookup_performer_ok ann ctx uid v r hr with ⟨persons, hag, _, hperf⟩
  have hsorted := sortByDistance_sorted persons
  have hperm := sortByDistance_perm persons
  refine ⟨?_, ?_, persons, hag, hperf, hperm, ?_, ?_⟩
  · rw [hperf, List.length_take]
    exact min_le_left _ _
  · rw [hperf]
    exact List.Pairwise.sublist (List.take_sublist 10 _) hsorted
  · rw [hperf]
    exact List.Pairwise.sublist (List.take_sublist 10 _)
      (sortByDistance_pairwise_tie (beforeIn persons) persons
        (pairwise_beforeIn persons))
  · intro hgt
    have hlen2 : (sortByDistance persons).length = persons.length :=
      hperm.length_eq
    constructor
    · rw [hperf, List.length_take, hlen2]
      omega
    · intro a ha b hb
      rw [hperf] at ha
      have hp := hsorted
      rw [← List.take_append_drop 10 (sortByDistance persons)] at hp
      exact (List.pairwise_append.1 hp).2.2 a ha b hb

theorem spec_C2_witness :
    (List.replicate 512 (0 : ℚ)).length = 512 ∧
    confirm exAnn exCtx "u" (List.replicate 512 0) = .ok exRes ∧
    exRes.performers.length ≤ 10 ∧
    exRes.performers.Pairwise (fun a b => a.distance ≤ b.distance) :=
  ⟨List.length_replicate 512 0, exEvalConfirm "u",
   (spec_C2 exAnn exCtx "u" (List.replicate 512 0)
     (List.length_replicate 512 0) exRes (exEvalConfirm "u")).1,
   (spec_C2 exAnn exCtx "u" (List.replicate 512 0)
     (List.length_replicate 512 0) exRes (exEvalConfirm "u")).2.1⟩

/-- C4: an identity key aggregated from the hits but absent from
`PERFORMER_DB` still appears; its response-model validation yields
name "N/A", image "N/A" and the computed distance.  Absence of metadata
is never an error: the only failures are the length check and an
out-of-range slot, neither of which involves `PERFORMER_DB`. -/
theorem spec_C4 (ann : List ℚ → List ℕ × List ℚ) (ctx : Context)
    (uid : String) (v : List ℚ) :
    (∀ r, confirm ann ctx uid v = .ok r → ∀ c ∈ r.performers,
      dbLookup ctx.performerDB c.id = none →
      c.toPerformer =
        { id := c.id, name := "N/A", image := "N/A", distance := c.distance }) ∧
    (∀ e, confirm ann ctx uid v = .error e →
      (e = .invalidVectorSize ∧ v.length ≠ 512) ∨
      (e = .invalidSlot ∧
        ∃ h ∈ (ann v).1.zip (ann v).2, ctx.annoyIndex.length ≤ h.1)) := by
  constructor
  · intro r hr c hc hdb
    by_cases hlen : v.length = 512
    · rw [confirm_eq_lookup ann ctx uid v hlen] at hr
      rcases lookup_performer_ok ann ctx uid v r hr with ⟨persons, hag, _, hperf⟩
      have hm : MetaOk ctx persons :=
        aggregate_metaOk ctx ((ann v).1.zip (ann v).2) [] persons
          (fun c hc => absurd hc (List.not_mem_nil c)) hag
      have hmem : c ∈ persons := by
        rw [hperf] at hc
        exact (sortByDistance_perm persons).mem_iff.1
          ((List.take_sublist 10 _).subset hc)
      rcases hm c hmem with ⟨hname, himage⟩
      rw [hdb] at hname himage
      simp only [Option.map_none'] at hname himage
      simp [Candidate.toPerformer, hname, himage]
    · rw [confirm_short ann ctx uid v hlen] at hr
      exact Except.noConfusion hr
  · intro e he
    by_cases hlen : v.length = 512
    · rw [confirm_eq_lookup ann ctx uid v hlen] at he
      have hag := lookup_performer_error ann ctx uid v e he
      rcases aggregate_error_char ctx ((ann v).1.zip (ann v).2) [] e hag with
        ⟨he2, hbad⟩
      exact Or.inr ⟨he2, hbad⟩
    · rw [confirm_short ann ctx uid v hlen] at he
      injection he with h1
      exact Or.inl ⟨h1.symm, hlen⟩

theorem spec_C4_witness :
    confirm exAnn exCtx "u" (List.replicate 512 0) = .ok exRes ∧
    dbLookup exCtx.performerDB "X" = none ∧
    ({ id := "X", distance := 1/2, hits := 2, name := none, image := none } :
        Candidate).toPerformer =
      { id := "X", name := "N/A", image := "N/A", distance := 1/2 } :=
  ⟨exEvalConfirm "u", by decide,
   (spec_C4 exAnn exCtx "u" (List.replicate 512 0)).1 exRes (exEvalConfirm "u")
     ⟨"X", 1/2, 2, none, none⟩ (by simp [exRes, exPerfs]) (by decide)⟩

/-- C9: every candidate in a successful result carries a `hits` field
equal to the number of raw ANN hits whose slot resolved to that
candidate's identity key; and for valid vectors the `/search` endpoint
returns the `lookup_performer` dictionary unchanged (no response model
filters it). -/
theorem spec_C9 (ann : List ℚ → List ℕ × List ℚ) (ctx : Context)
    (uid : String) (v : List ℚ) :
    (∀ r, lookup_performer ann ctx uid v = .ok r →
      ∀ c ∈ r.performers,
        c.hits = hitCount ctx ((ann v).1.zip (ann v).2) c.id) ∧
    (v.length = 512 → confirm ann ctx uid v = lookup_performer ann ctx uid v) := by
  constructor
  · intro r h c hc
    rcases lookup_performer_ok ann ctx uid v r h with ⟨persons, hag, _, hperf⟩
    have hd : DistinctIds persons :=
      aggregate_distinct ctx ((ann v).1.zip (ann v).2) [] persons
        List.Pairwise.nil hag
    have htot := aggregate_totalHits ctx ((ann v).1.zip (ann v).2) [] persons
      List.Pairwise.nil hag c.id
    have hmem : c ∈ persons := by
      rw [hperf] at hc
      exact (sortByDistance_perm persons).mem_iff.1
        ((List.take_sublist 10 _).subset hc)
    have hctot := totalHits_of_mem_distinct persons c hd hmem
    rw [totalHits_nil] at htot
    omega
  · exact confirm_eq_lookup ann ctx uid v

theorem spec_C9_witness :
    lookup_performer exAnn exCtx "u" (List.replicate 512 0) = .ok exRes ∧
    ({ id := "X", distance := 1/2, hits := 2, name := none, image := none } :
        Candidate).hits =
      hitCount exCtx ((exAnn (List.replicate 512 0)).1.zip
        (exAnn (List.replicate 512 0)).2)
        ({ id := "X", distance := 1/2, hits := 2, name := none,
           image := none } : Candidate).id :=
  ⟨exEval "u",
   (spec_C9 exAnn exCtx "u" (List.replicate 512 0)).1 exRes (exEval "u")
     ⟨"X", 1/2, 2, none, none⟩ (by simp [exRes, exPerfs])⟩

end Visage
